import Mathlib

set_option maxHeartbeats 1000000

/- Verification of the spk multi-repo build orchestrator
   (Spark-Rewards/homebrew-spk), shallowly embedded from the Go sources
   cmd/build.go, internal/npm/npm.go and internal/workspace/workspace.go.

   Modelling conventions:
   * A Go `map[string]V` is modelled as an association list
     `List (String × V)` whose list order is the map's iteration order
     (Go randomizes that order per run; quantifying over the list
     captures every possible enumeration, and comparing two permuted
     lists models two distinct runs over the same map).
   * Machine integers (`int` in-degrees) are `Int`.
   * The filesystem is a partial map from paths to entries; `os.Stat`,
     `os.Lstat`, `os.Symlink`, `os.RemoveAll` and `os.MkdirAll` act on it.
   * External process invocations (`npm link`, build commands) are
     modelled by their documented effect, respectively by a success
     oracle carried in a `World`. -/
/- ===================== Definitions ==================================== -/

/-- Embeds `workspace.RepoDef` (internal/workspace/workspace.go lines 15-20). -/
structure RepoDef where
  remote : String := ""
  path : String := ""
  buildCommand : String := ""
  dependencies : List String := []
deriving DecidableEq

/-- The `Repos` field of `workspace.Workspace`: a Go map from repo name to
`RepoDef`, modelled as an association list in iteration order. -/
abbrev Registry := List (String × RepoDef)

/-- The key set of the registry, in iteration order. -/
def keys (repos : Registry) : List String := repos.map Prod.fst

/-- Go map read `ws.Repos[name]` (the `value, ok` form). -/
def lookupRepo (repos : Registry) (name : String) : Option RepoDef :=
  (repos.find? (fun p => p.1 == name)).map Prod.snd

/-- Go map read `ws.Repos[name].Path`-style access: missing keys yield the
zero value `RepoDef{}`. -/
def repoPathOf (repos : Registry) (name : String) : String :=
  ((lookupRepo repos name).getD {}).path

/-- Embeds `apiToModel` (cmd/build.go lines 37-40), with the Go `value, ok`
idiom as an `Option`. -/
def apiToModel (name : String) : Option String :=
  if name = "AppAPI" then some "AppModel"
  else if name = "BusinessAPI" then some "BusinessModel"
  else none

/-- Embeds `depMapping` (cmd/build.go lines 27-30). -/
structure depMapping where
  api : String
  pkg : String
deriving DecidableEq

/-- Embeds `modelToAPI` (cmd/build.go lines 32-35). -/
def modelToAPI (name : String) : Option depMapping :=
  if name = "AppModel" then some ⟨"AppAPI", "@spark-rewards/sra-sdk"⟩
  else if name = "BusinessModel" then some ⟨"BusinessAPI", "@spark-rewards/srw-sdk"⟩
  else none

/-- Embeds `knownBuildCommands` (cmd/build.go lines 20-25). -/
def knownBuildCommands (name : String) : Option String :=
  if name = "AppModel" then some "npm run build:all"
  else if name = "BusinessModel" then some "npm run build:all"
  else if name = "AppAPI" then some "npm run build"
  else if name = "BusinessAPI" then some "npm run build"
  else none

/-- Embeds `inDegree[name]++` on the in-degree map (cmd/build.go lines 279,
296). -/
def bump (d : String → Int) (name : String) : String → Int :=
  fun x => if x = name then d name + 1 else d x

/-- Embeds `dependents[m] = append(dependents[m], name)` (cmd/build.go lines
278, 295). -/
def pushDep (dep : String → List String) (m name : String) : String → List String :=
  fun x => if x = m then dep m ++ [name] else dep x

/-- First edge-collection loop of `getSmartBuildOrder` (cmd/build.go lines
275-282): for each repo name, if it is an API whose model is registered, add
the model→API edge.  `ks` is the full key set of the registry; the cursor
list is the iteration order of `range ws.Repos`. -/
def phaseA (ks : List String) :
    List String → (String → Int) → (String → List String) →
    (String → Int) × (String → List String)
  | [], d, dep => (d, dep)
  | name :: rest, d, dep =>
    match apiToModel name with
    | some modelName =>
      if modelName ∈ ks then phaseA ks rest (bump d name) (pushDep dep modelName name)
      else phaseA ks rest d dep
    | none => phaseA ks rest d dep

/-- Inner loop of the second edge-collection pass (cmd/build.go lines
285-299): walk `repo.Dependencies` of the repo called `name`, skipping
unregistered names and edges already present (`alreadyAdded`). -/
def phaseBDeps (ks : List String) (name : String) :
    List String → (String → Int) → (String → List String) →
    (String → Int) × (String → List String)
  | [], d, dep => (d, dep)
  | depName :: ds, d, dep =>
    if depName ∈ ks then
      if name ∈ dep depName then phaseBDeps ks name ds d dep
      else phaseBDeps ks name ds (bump d name) (pushDep dep depName name)
    else phaseBDeps ks name ds d dep

/-- Second edge-collection loop of `getSmartBuildOrder` (cmd/build.go lines
284-300): explicit `Dependencies` edges. -/
def phaseB (ks : List String) :
    Registry → (String → Int) → (String → List String) →
    (String → Int) × (String → List String)
  | [], d, dep => (d, dep)
  | (name, rd) :: rest, d, dep =>
    let p := phaseBDeps ks name rd.dependencies d dep
    phaseB ks rest p.1 p.2

/-- Body of `for _, dep := range dependents[current]` (cmd/build.go lines
315-320): decrement each dependent's in-degree, enqueueing it when the
in-degree reaches zero. -/
def relax1 : List String → List String → (String → Int) →
    List String × (String → Int)
  | [], queue, d => (queue, d)
  | v :: vs, queue, d =>
    relax1 vs (if d v - 1 = 0 then queue ++ [v] else queue)
      (fun x => if x = v then d v - 1 else d x)

/-- Kahn frontier loop of `getSmartBuildOrder` (cmd/build.go lines 309-321).
The Go loop needs no fuel; here structural fuel is supplied, and
`getSmartBuildOrder` passes enough fuel that it is never exhausted (each
iteration emits one repo and no repo is emitted twice). -/
def kahnRun (dep : String → List String) :
    Nat → List String → (String → Int) → List String → List String
  | 0, _, _, ord => ord
  | _ + 1, [], _, ord => ord
  | fuel + 1, c :: rest, d, ord =>
    let p := relax1 (dep c) rest d
    kahnRun dep fuel p.1 p.2 (ord ++ [c])

/-- Final completion loop of `getSmartBuildOrder` (cmd/build.go lines
323-334): append every registered repo that is missing from the order. -/
def addMissing : List String → List String → List String
  | ord, [] => ord
  | ord, n :: ns => if n ∈ ord then addMissing ord ns else addMissing (ord ++ [n]) ns

/-- Embeds `getSmartBuildOrder` (cmd/build.go lines 267-337). -/
def getSmartBuildOrder (repos : Registry) : List String :=
  let ks := keys repos
  let pA := phaseA ks ks (fun _ => 0) (fun _ => [])
  let pB := phaseB ks repos pA.1 pA.2
  let queue := ks.filter (fun n => pB.1 n = 0)
  addMissing (kahnRun pB.2 (ks.length + 1) queue pB.1 []) ks

/-- The dependency/producer edge relation of the graph `getSmartBuildOrder`
builds: `edgeB repos u v = true` means u must be built before v, either
because v is an API whose model is u (cmd/build.go lines 275-282) or because
v explicitly depends on u (lines 284-300); both endpoints must be
registered. -/
def edgeB (repos : Registry) (u v : String) : Bool :=
  decide (u ∈ keys repos) && decide (v ∈ keys repos) &&
    (decide (apiToModel v = some u) ||
      (match lookupRepo repos v with
       | some rd => decide (u ∈ rd.dependencies)
       | none => false))

/-- Acyclicity of the dependency/producer graph: no name reaches itself
through a nonempty chain of edges. -/
def Acyclic (repos : Registry) : Prop :=
  ∀ x, ¬ Relation.TransGen (fun u v => edgeB repos u v = true) x x

/-- A directory entry as distinguished by `os.Lstat`: a regular file, a
directory, or a symbolic link with its target. -/
inductive Entry
  | file
  | dir
  | symlink (target : String)
deriving DecidableEq

/-- The filesystem: a partial map from absolute paths to entries. -/
abbrev FS := String → Option Entry

/-- Embeds `filepath.Join` for the path shapes used by the claims. -/
def joinPath (a b : String) : String := a ++ "/" ++ b

/-- Models `os.Stat(p) == nil`: the entry exists, following a symlink to an
existing target. -/
def statOk (fs : FS) (p : String) : Bool :=
  match fs p with
  | none => false
  | some (Entry.symlink t) => (fs t).isSome
  | some _ => true

/-- Embeds `npm.SmithyBuildPath` (internal/npm/npm.go). -/
def SmithyBuildPath : String :=
  "smithy/build/smithyprojections/smithy/source/typescript-ssdk-codegen"

/-- Embeds `npm.BuildOutputDir` (internal/npm/npm.go). -/
def BuildOutputDir (modelDir : String) : String := joinPath modelDir SmithyBuildPath

/-- Embeds `npm.IsBuilt` (internal/npm/npm.go lines 42-55): both the package
descriptor and the compiled-output marker must stat successfully. -/
def IsBuilt (fs : FS) (modelDir : String) : Bool :=
  statOk fs (joinPath (BuildOutputDir modelDir) "package.json") &&
    statOk fs (joinPath (BuildOutputDir modelDir) "dist-types")

/-- Embeds `npm.IsLinked` (internal/npm/npm.go lines 84-91): `os.Lstat` the
`node_modules` entry, false on error, true only for a symlink mode. -/
def IsLinked (fs : FS) (dir pkg : String) : Bool :=
  match fs (joinPath (joinPath dir "node_modules") pkg) with
  | some (Entry.symlink _) => true
  | _ => false

/-- Embeds `npm.DirectLink` (internal/npm/npm.go lines 116-137): make the parent
scope directories, `os.RemoveAll` whatever occupies the slot — regular
file, directory (with its contents) or old symlink — then symlink the slot
to the build output.  `MkdirAll`/`RemoveAll`/`Symlink` are modelled as
succeeding, which is the Go behaviour whenever every ancestor of the slot
is a directory or missing. -/
def DirectLink (fs : FS) (consumerDir pkg buildDir : String) : FS :=
  let target := joinPath (joinPath consumerDir "node_modules") pkg
  fun p =>
    if p = target then some (Entry.symlink buildDir)
    else if (p ++ "/").data.isPrefixOf target.data then
      match fs p with
      | none => some Entry.dir
      | some e => some e
    else if (target ++ "/").data.isPrefixOf p.data then none
    else fs p

/-- Modelled effect of `npm.Link buildDir` followed by
`npm.LinkPackage apiDir pkg` (cmd/build.go lines 186-192 / 227-233): the
external npm collaborator registers the build output globally and replaces
the consumer's `node_modules` entry with a link resolving to it. -/
def npmLinkEffect (fs : FS) (buildDir apiDir pkg : String) : FS :=
  fun p =>
    if p = joinPath (joinPath apiDir "node_modules") pkg then
      some (Entry.symlink buildDir)
    else fs p

/-- Embeds `autoLinkDependencies` (cmd/build.go lines 158-196), pre-build linking
phase: returns the filesystem after the phase. -/
def autoLinkDependencies (wsPath : String) (ws : Registry) (name : String)
    (fs : FS) : FS :=
  match apiToModel name with
  | none => fs
  | some modelName =>
    match lookupRepo ws modelName with
    | none => fs
    | some modelRepo =>
      let modelDir := joinPath wsPath modelRepo.path
      let apiDir := joinPath wsPath (repoPathOf ws name)
      let mapping := (modelToAPI modelName).getD ⟨"", ""⟩
      if !(IsBuilt fs modelDir) then fs
      else if IsLinked fs apiDir mapping.pkg then fs
      else npmLinkEffect fs (BuildOutputDir modelDir) apiDir mapping.pkg

/-- Embeds `autoLinkToConsumers` (cmd/build.go lines 198-237), post-build
propagation phase. -/
def autoLinkToConsumers (wsPath : String) (ws : Registry) (name : String)
    (fs : FS) : FS :=
  match modelToAPI name with
  | none => fs
  | some mapping =>
    match lookupRepo ws mapping.api with
    | none => fs
    | some apiRepo =>
      let apiDir := joinPath wsPath apiRepo.path
      if !(statOk fs apiDir) then fs
      else
        let modelDir := joinPath wsPath (repoPathOf ws name)
        if !(IsBuilt fs modelDir) then fs
        else if IsLinked fs apiDir mapping.pkg then fs
        else npmLinkEffect fs (BuildOutputDir modelDir) apiDir mapping.pkg

/-- The ambient world for build execution: the filesystem plus a success
oracle for `runShell dir command` (the external build processes).  Held
fixed across a `buildAll` sequence; the claims verified here do not depend
on artifacts a build writes. -/
structure World where
  fs : FS
  runOk : String → String → Bool

/-- Embeds `getBuildCommand` (cmd/build.go lines 88-111). -/
def getBuildCommand (w : World) (name : String) (repo : RepoDef)
    (repoDir : String) : String :=
  if repo.buildCommand ≠ "" then repo.buildCommand
  else
    match knownBuildCommands name with
    | some c => c
    | none =>
      if statOk w.fs (joinPath repoDir "package.json") then "npm run build"
      else if statOk w.fs (joinPath repoDir "build.gradle") ||
          statOk w.fs (joinPath repoDir "build.gradle.kts") then "./gradlew build"
      else if statOk w.fs (joinPath repoDir "Makefile") then "make"
      else if statOk w.fs (joinPath repoDir "go.mod") then "go build ./..."
      else ""

/-- Success of `buildRepo` (cmd/build.go lines 118-156): fails when the
target is unregistered, its directory is missing, or its build command
exits nonzero; linking-phase problems are swallowed (lines 132-134,
149-151) and an empty build command is a reported no-op success. -/
def buildRepoOk (w : World) (wsPath : String) (ws : Registry)
    (name : String) : Bool :=
  match lookupRepo ws name with
  | none => false
  | some repo =>
    let repoDir := joinPath wsPath repo.path
    if !(statOk w.fs repoDir) then false
    else
      let cmd := getBuildCommand w name repo repoDir
      if cmd = "" then true else w.runOk repoDir cmd

/-- Per-repo outcome of the `buildAllRepos` loop. -/
inductive RepoOutcome
  | notRegistered
  | notCloned
  | built
  | failed
deriving DecidableEq

/-- The `buildAllRepos` loop (cmd/build.go lines 245-261) over a given
order: unregistered names are skipped (`continue`), repos whose directory
is missing are reported and skipped (`continue`), a failing `buildRepo`
returns the error immediately (nothing later is attempted). -/
def buildAllGo (w : World) (wsPath : String) (ws : Registry) :
    List String → List (String × RepoOutcome)
  | [] => []
  | name :: rest =>
    match lookupRepo ws name with
    | none => (name, RepoOutcome.notRegistered) :: buildAllGo w wsPath ws rest
    | some repo =>
      if !(statOk w.fs (joinPath wsPath repo.path)) then
        (name, RepoOutcome.notCloned) :: buildAllGo w wsPath ws rest
      else if buildRepoOk w wsPath ws name then
        (name, RepoOutcome.built) :: buildAllGo w wsPath ws rest
      else [(name, RepoOutcome.failed)]

/-- Embeds `buildAllRepos` (cmd/build.go lines 239-265): the execution trace over
the smart build order, plus the overall success flag (`nil` return). -/
def buildAllRepos (w : World) (wsPath : String) (ws : Registry) :
    List (String × RepoOutcome) × Bool :=
  let t := buildAllGo w wsPath ws (getSmartBuildOrder ws)
  (t, !(t.any (fun p => p.2 == RepoOutcome.failed)))

/-- A consumer filesystem whose package slot is occupied by a real
directory containing real data. -/
def fsC3 : FS := fun p =>
  if p = "/w/app/node_modules/sdk" then some Entry.dir
  else if p = "/w/app/node_modules/sdk/data.txt" then some Entry.file
  else if p = "/w/app/node_modules" then some Entry.dir
  else if p = "/w/app" then some Entry.dir
  else none

/-- A two-repo workspace: AppModel at `m`, AppAPI at `a`. -/
def wsAM : Registry := [("AppModel", { path := "m" }), ("AppAPI", { path := "a" })]

/-- A filesystem where AppAPI's sdk slot is already a symlink. -/
def fsLinked : FS := fun p =>
  if p = "/w/a/node_modules/@spark-rewards/sra-sdk" then
    some (Entry.symlink "/w/m/out")
  else none

/-- The empty filesystem: nothing has ever been built or installed. -/
def fsEmpty : FS := fun _ => none

/-- Five registered repos, `r3` living at `/w/c`. -/
def ws5 : Registry :=
  [("r1", { path := "a", buildCommand := "mk" }),
   ("r2", { path := "b", buildCommand := "mk" }),
   ("r3", { path := "c", buildCommand := "mk" }),
   ("r4", { path := "d", buildCommand := "mk" }),
   ("r5", { path := "e", buildCommand := "mk" })]

/-- A world where every working copy exists but the build command fails in
`/w/c` (the third repo). -/
def w5 : World :=
  { fs := fun p =>
      if ["/w/a", "/w/b", "/w/c", "/w/d", "/w/e"].contains p then some Entry.dir
      else none,
    runOk := fun dir _ => !(dir == "/w/c") }

/-- Number of registered predecessors of `v`: registered names `u` whose
dependents list contains `v`. -/
def predCount (ks : List String) (dep : String → List String) (v : String) : Int :=
  ((ks.filter (fun u => decide (v ∈ dep u))).length : Int)

/-- The coupling maintained while `getSmartBuildOrder` collects edges:
every in-degree equals the number of dependents lists containing the node,
dependents lists are duplicate-free, contain only registered names, and
exist only for registered names. -/
def GraphInv (ks : List String) (d : String → Int) (dep : String → List String) : Prop :=
  (∀ v, d v = predCount ks dep v)
  ∧ (∀ u, (dep u).Nodup)
  ∧ (∀ u v, v ∈ dep u → v ∈ ks)
  ∧ (∀ u, u ∉ ks → dep u = [])

/-- The in-degree map and dependents map built by lines 268-300 of
cmd/build.go. -/
def graphOf (repos : Registry) : (String → Int) × (String → List String) :=
  let ks := keys repos
  let pA := phaseA ks ks (fun _ => 0) (fun _ => [])
  phaseB ks repos pA.1 pA.2

/-- The invariant of the Kahn frontier loop (cmd/build.go lines 302-321):
`ord` is the emitted order, `queue` the pending frontier, `d` the current
in-degree map.  Nothing is duplicated, everything is registered, every
in-degree equals the initial predecessor count minus the predecessors
already emitted, the zero-degree nodes are exactly those emitted or
pending, the emitted order violates no edge, and the emitted order is
closed under predecessors. -/
def KahnInv (ks : List String) (dep : String → List String)
    (queue : List String) (d : String → Int) (ord : List String) : Prop :=
  (ord ++ queue).Nodup
  ∧ (∀ x ∈ ord ++ queue, x ∈ ks)
  ∧ (∀ v, d v = predCount ks dep v - predCount ord dep v)
  ∧ (∀ v ∈ ks, (d v = 0 ↔ v ∈ ord ∨ v ∈ queue))
  ∧ List.Pairwise (fun a b => a ∉ dep b) ord
  ∧ (∀ a ∈ ord, ∀ u, a ∈ dep u → u ∈ ord)

/-- The three-repo chain of end-to-end scenario C: A depends on B, B
depends on C. -/
def regChain : Registry :=
  [("A", { dependencies := ["B"] }), ("B", { dependencies := ["C"] }), ("C", {})]

/-- A two-node cyclic registry with an unrelated third repo. -/
def regMix : Registry :=
  [("P", { dependencies := ["Q"] }), ("Q", { dependencies := ["P"] }),
   ("R", {})]

/-- The two-node cycle of end-to-end scenario D: X and Y depend on each
other. -/
def regCyc : Registry :=
  [("X", { dependencies := ["Y"] }), ("Y", { dependencies := ["X"] })]

/-- Two enumerations of the same two-repo registry (Go map iteration order
is randomized per run). -/
def regXY : Registry := [("X", {}), ("Y", {})]

def regYX : Registry := [("Y", {}), ("X", {})]

/-- A registry with a single repo that declares a dependency on an
unregistered name. -/
def regDangling : Registry :=
  [("A", { path := "a", buildCommand := "mk", dependencies := ["Ghost"] })]

/-- A world in which repo A's directory exists and every build command
succeeds. -/
def wGhost : World :=
  { fs := fun p => if p = "/w/a" then some Entry.dir else none,
    runOk := fun _ _ => true }

/-- Dropping every dependency entry that names an unregistered repository. -/
def dropDanglingDeps (repos : Registry) : Registry :=
  repos.map (fun p => (p.1,
    { p.2 with dependencies :=
        p.2.dependencies.filter (fun dp => decide (dp ∈ keys repos)) }))

/- ===================== Lemmas and theorems ============================ -/

lemma isLinked_npmLinkEffect (fs : FS) (buildDir apiDir pkg : String) :
    IsLinked (npmLinkEffect fs buildDir apiDir pkg) apiDir pkg = true := by
  simp [IsLinked, npmLinkEffect]

/-- Every exit of `autoLinkDependencies` either leaves the filesystem
untouched or has just installed the link it was asked for. -/
lemma autoLinkDependencies_result (wsPath : String) (ws : Registry)
    (name : String) (fs : FS) :
    autoLinkDependencies wsPath ws name fs = fs ∨
    ∃ modelName, apiToModel name = some modelName ∧
      IsLinked (autoLinkDependencies wsPath ws name fs)
        (joinPath wsPath (repoPathOf ws name))
        ((modelToAPI modelName).getD ⟨"", ""⟩).pkg = true := by
  cases happ : apiToModel name with
  | none => left; simp [autoLinkDependencies, happ]
  | some modelName =>
    cases hrep : lookupRepo ws modelName with
    | none => left; simp [autoLinkDependencies, happ, hrep]
    | some modelRepo =>
      by_cases hb : IsBuilt fs (joinPath wsPath modelRepo.path) = true
      · by_cases hl : IsLinked fs (joinPath wsPath (repoPathOf ws name))
            ((modelToAPI modelName).getD ⟨"", ""⟩).pkg = true
        · left; simp [autoLinkDependencies, happ, hrep, hb, hl]
        · right
          refine ⟨modelName, rfl, ?_⟩
          have hl' : IsLinked fs (joinPath wsPath (repoPathOf ws name))
              ((modelToAPI modelName).getD ⟨"", ""⟩).pkg = false := by
            simpa using hl
          simp [autoLinkDependencies, happ, hrep, hb, hl',
            isLinked_npmLinkEffect]
      · left
        have hb' : IsBuilt fs (joinPath wsPath modelRepo.path) = false := by
          simpa using hb
        simp [autoLinkDependencies, happ, hrep, hb']

lemma autoLinkDependencies_skip (wsPath : String) (ws : Registry)
    (name modelName : String) (fs : FS)
    (h1 : apiToModel name = some modelName)
    (h2 : IsLinked fs (joinPath wsPath (repoPathOf ws name))
      ((modelToAPI modelName).getD ⟨"", ""⟩).pkg = true) :
    autoLinkDependencies wsPath ws name fs = fs := by
  cases hrep : lookupRepo ws modelName with
  | none => simp [autoLinkDependencies, h1, hrep]
  | some modelRepo =>
    by_cases hb : IsBuilt fs (joinPath wsPath modelRepo.path) = true
    · simp [autoLinkDependencies, h1, hrep, hb, h2]
    · have hb' : IsBuilt fs (joinPath wsPath modelRepo.path) = false := by
        simpa using hb
      simp [autoLinkDependencies, h1, hrep, hb']

lemma autoLinkToConsumers_result (wsPath : String) (ws : Registry)
    (name : String) (fs : FS) :
    autoLinkToConsumers wsPath ws name fs = fs ∨
    ∃ mapping apiRepo, modelToAPI name = some mapping ∧
      lookupRepo ws mapping.api = some apiRepo ∧
      IsLinked (autoLinkToConsumers wsPath ws name fs)
        (joinPath wsPath apiRepo.path) mapping.pkg = true := by
  cases hmap : modelToAPI name with
  | none => left; simp [autoLinkToConsumers, hmap]
  | some mapping =>
    cases hrep : lookupRepo ws mapping.api with
    | none => left; simp [autoLinkToConsumers, hmap, hrep]
    | some apiRepo =>
      by_cases hs : statOk fs (joinPath wsPath apiRepo.path) = true
      · by_cases hb : IsBuilt fs (joinPath wsPath (repoPathOf ws name)) = true
        · by_cases hl : IsLinked fs (joinPath wsPath apiRepo.path) mapping.pkg = true
          · left; simp [autoLinkToConsumers, hmap, hrep, hs, hb, hl]
          · right
            refine ⟨mapping, apiRepo, rfl, hrep, ?_⟩
            have hl' : IsLinked fs (joinPath wsPath apiRepo.path) mapping.pkg = false := by
              simpa using hl
            simp [autoLinkToConsumers, hmap, hrep, hs, hb, hl',
              isLinked_npmLinkEffect]
        · left
          have hb' : IsBuilt fs (joinPath wsPath (repoPathOf ws name)) = false := by
            simpa using hb
          simp [autoLinkToConsumers, hmap, hrep, hs, hb']
      · left
        have hs' : statOk fs (joinPath wsPath apiRepo.path) = false := by
          simpa using hs
        simp [autoLinkToConsumers, hmap, hrep, hs']

lemma autoLinkToConsumers_skip (wsPath : String) (ws : Registry)
    (name : String) (mapping : depMapping) (apiRepo : RepoDef) (fs : FS)
    (h1 : modelToAPI name = some mapping)
    (h2 : lookupRepo ws mapping.api = some apiRepo)
    (h3 : IsLinked fs (joinPath wsPath apiRepo.path) mapping.pkg = true) :
    autoLinkToConsumers wsPath ws name fs = fs := by
  by_cases hs : statOk fs (joinPath wsPath apiRepo.path) = true
  · by_cases hb : IsBuilt fs (joinPath wsPath (repoPathOf ws name)) = true
    · simp [autoLinkToConsumers, h1, h2, hs, hb, h3]
    · have hb' : IsBuilt fs (joinPath wsPath (repoPathOf ws name)) = false := by
        simpa using hb
      simp [autoLinkToConsumers, h1, h2, hs, hb']
  · have hs' : statOk fs (joinPath wsPath apiRepo.path) = false := by
      simpa using hs
    simp [autoLinkToConsumers, h1, h2, hs']

/-- C3 counterexample: the claim says a link attempt must leave a real
(non-symlink) occupant of the slot untouched and report a conflict.  On a
slot occupied by a real directory, `DirectLink` instead replaces the
directory with a symlink and deletes the data stored beneath it. -/
theorem c3_counterexample :
    fsC3 "/w/app/node_modules/sdk" = some Entry.dir ∧
    fsC3 "/w/app/node_modules/sdk/data.txt" = some Entry.file ∧
    DirectLink fsC3 "/w/app" "sdk" "/w/model/out" "/w/app/node_modules/sdk"
      = some (Entry.symlink "/w/model/out") ∧
    DirectLink fsC3 "/w/app" "sdk" "/w/model/out" "/w/app/node_modules/sdk/data.txt"
      = none := by
  decide

/-- C3 amended: `DirectLink` unconditionally overwrites the slot — whatever
occupied it (real file, real directory with its contents, or stale symlink)
is removed via `os.RemoveAll` and the slot becomes a symlink to the build
output; every path strictly beneath the slot is deleted.  No conflict
signal exists. -/
theorem c3_directLink_overwrites (fs : FS) (consumerDir pkg buildDir : String) :
    DirectLink fs consumerDir pkg buildDir
        (joinPath (joinPath consumerDir "node_modules") pkg)
      = some (Entry.symlink buildDir)
  ∧ ∀ q,
      ((joinPath (joinPath consumerDir "node_modules") pkg ++ "/").data.isPrefixOf
        q.data) = true →
      DirectLink fs consumerDir pkg buildDir q = none := by
  constructor
  · simp [DirectLink]
  · intro q hq
    have hslash : "/".data = ['/'] := rfl
    have hq' : (joinPath (joinPath consumerDir "node_modules") pkg).data
        ++ ['/'] <+: q.data := by
      rw [← hslash, ← String.data_append]
      exact List.isPrefixOf_iff_prefix.mp hq
    have hlen : (joinPath (joinPath consumerDir "node_modules") pkg).data.length + 1
        ≤ q.data.length := by
      have h := hq'.length_le
      rw [List.length_append] at h
      exact h
    have hne : ¬ (q = joinPath (joinPath consumerDir "node_modules") pkg) := by
      intro h
      rw [h] at hlen
      omega
    have hnpre : ¬ (q.data ++ ['/'] <+:
        (joinPath (joinPath consumerDir "node_modules") pkg).data) := by
      intro hcon
      have h2 := hcon.length_le
      rw [List.length_append] at h2
      have h3 : q.data.length + 1
          ≤ (joinPath (joinPath consumerDir "node_modules") pkg).data.length := h2
      omega
    simp [DirectLink, hne, hnpre, hq']

/-- C4: linking is idempotent.  Running a linking phase twice without
rebuilding yields exactly the filesystem of the first run (a second or
third call makes no filesystem change), and when `IsLinked` already holds
for the edge the phase takes its skip branch and returns the filesystem
unchanged. -/
theorem c4_linking_idempotent (wsPath : String) (ws : Registry)
    (name : String) (fs : FS) :
    autoLinkDependencies wsPath ws name (autoLinkDependencies wsPath ws name fs)
      = autoLinkDependencies wsPath ws name fs
  ∧ autoLinkToConsumers wsPath ws name (autoLinkToConsumers wsPath ws name fs)
      = autoLinkToConsumers wsPath ws name fs
  ∧ (∀ modelName, apiToModel name = some modelName →
      IsLinked fs (joinPath wsPath (repoPathOf ws name))
        ((modelToAPI modelName).getD ⟨"", ""⟩).pkg = true →
      autoLinkDependencies wsPath ws name fs = fs)
  ∧ (∀ mapping apiRepo, modelToAPI name = some mapping →
      lookupRepo ws mapping.api = some apiRepo →
      IsLinked fs (joinPath wsPath apiRepo.path) mapping.pkg = true →
      autoLinkToConsumers wsPath ws name fs = fs) := by
  refine ⟨?_, ?_, ?_, ?_⟩
  · rcases autoLinkDependencies_result wsPath ws name fs with h | ⟨m, hm, hl⟩
    · rw [h]
      exact h
    · exact autoLinkDependencies_skip wsPath ws name m _ hm hl
  · rcases autoLinkToConsumers_result wsPath ws name fs with h | ⟨mp, ar, hm, hr, hl⟩
    · rw [h]
      exact h
    · exact autoLinkToConsumers_skip wsPath ws name mp ar _ hm hr hl
  · intro m hm hl
    exact autoLinkDependencies_skip wsPath ws name m fs hm hl
  · intro mp ar h1 h2 h3
    exact autoLinkToConsumers_skip wsPath ws name mp ar fs h1 h2 h3

theorem c4_witness :
    IsLinked fsLinked (joinPath "/w" (repoPathOf wsAM "AppAPI"))
      ((modelToAPI "AppModel").getD ⟨"", ""⟩).pkg = true ∧
    autoLinkDependencies "/w" wsAM "AppAPI" fsLinked = fsLinked := by
  refine ⟨by decide, ?_⟩
  exact (c4_linking_idempotent "/w" wsAM "AppAPI" fsLinked).2.2.1 "AppModel"
    (by decide) (by decide)

/-- C5: fallback correctness.  If the producer has no build output
(`IsBuilt` is false), neither linking phase changes the filesystem — no
link is attempted for the edge and the consumer stays on its installed
published copy. -/
theorem c5_fallback (wsPath : String) (ws : Registry) (name : String) (fs : FS) :
    (∀ modelName modelRepo, apiToModel name = some modelName →
      lookupRepo ws modelName = some modelRepo →
      IsBuilt fs (joinPath wsPath modelRepo.path) = false →
      autoLinkDependencies wsPath ws name fs = fs)
  ∧ (IsBuilt fs (joinPath wsPath (repoPathOf ws name)) = false →
      autoLinkToConsumers wsPath ws name fs = fs) := by
  constructor
  · intro modelName modelRepo h1 h2 h3
    simp [autoLinkDependencies, h1, h2, h3]
  · intro h
    cases hmap : modelToAPI name with
    | none => simp [autoLinkToConsumers, hmap]
    | some mapping =>
      cases hrep : lookupRepo ws mapping.api with
      | none => simp [autoLinkToConsumers, hmap, hrep]
      | some apiRepo =>
        by_cases hs : statOk fs (joinPath wsPath apiRepo.path) = true
        · simp [autoLinkToConsumers, hmap, hrep, hs, h]
        · have hs' : statOk fs (joinPath wsPath apiRepo.path) = false := by
            simpa using hs
          simp [autoLinkToConsumers, hmap, hrep, hs']

theorem c5_witness :
    IsBuilt fsEmpty (joinPath "/w" "m") = false ∧
    autoLinkDependencies "/w" wsAM "AppAPI" fsEmpty = fsEmpty := by
  refine ⟨by decide, ?_⟩
  exact (c5_fallback "/w" wsAM "AppAPI" fsEmpty).1 "AppModel" { path := "m" }
    (by decide) (by decide) (by decide)

/-- C9: the inspector queries are total Booleans (their Go types carry no
error), and on missing state they answer `false`: a producer whose build
output has never been created is reported unbuilt, and a consumer with no
`node_modules` entry for the package is reported unlinked. -/
theorem c9_inspector_total (fs : FS) (modelDir dir pkg : String) :
    (fs (joinPath (BuildOutputDir modelDir) "package.json") = none →
      IsBuilt fs modelDir = false)
  ∧ (fs (joinPath (joinPath dir "node_modules") pkg) = none →
      IsLinked fs dir pkg = false) := by
  constructor
  · intro h
    simp [IsBuilt, statOk, h]
  · intro h
    simp [IsLinked, h]

theorem c9_witness :
    fsEmpty (joinPath (BuildOutputDir "/w/m") "package.json") = none ∧
    IsBuilt fsEmpty "/w/m" = false ∧
    IsLinked fsEmpty "/w/a" "@spark-rewards/sra-sdk" = false := by
  refine ⟨rfl, (c9_inspector_total fsEmpty "/w/m" "/w/a" "@spark-rewards/sra-sdk").1 rfl,
    (c9_inspector_total fsEmpty "/w/m" "/w/a" "@spark-rewards/sra-sdk").2 rfl⟩

/-- The trace of the `buildAllRepos` loop covers an initial segment of the
order: the loop proceeds name by name and stops only by exhausting the
order or aborting. -/
lemma buildAllGo_take (w : World) (wsPath : String) (ws : Registry) :
    ∀ l : List String,
      (buildAllGo w wsPath ws l).map Prod.fst
        = l.take (buildAllGo w wsPath ws l).length := by
  intro l
  induction l with
  | nil => rfl
  | cons name rest ih =>
    cases hrep : lookupRepo ws name with
    | none => simp [buildAllGo, hrep, ih]
    | some repo =>
      by_cases hs : statOk w.fs (joinPath wsPath repo.path) = true
      · by_cases hb : buildRepoOk w wsPath ws name = true
        · simp [buildAllGo, hrep, hs, hb, ih]
        · have hb' : buildRepoOk w wsPath ws name = false := by simpa using hb
          simp [buildAllGo, hrep, hs, hb']
      · have hs' : statOk w.fs (joinPath wsPath repo.path) = false := by
          simpa using hs
        simp [buildAllGo, hrep, hs', ih]

/-- Only the final entry of a `buildAllRepos` trace can be a failure:
everything before it was either skipped (not registered / not cloned) or
built successfully. -/
lemma buildAllGo_dropLast (w : World) (wsPath : String) (ws : Registry) :
    ∀ l : List String, ∀ p ∈ (buildAllGo w wsPath ws l).dropLast,
      p.2 ≠ RepoOutcome.failed := by
  intro l
  induction l with
  | nil => intro p hp; simp [buildAllGo] at hp
  | cons name rest ih =>
    have step : ∀ o : RepoOutcome, o ≠ RepoOutcome.failed →
        ∀ p ∈ ((name, o) :: buildAllGo w wsPath ws rest).dropLast,
          p.2 ≠ RepoOutcome.failed := by
      intro o ho p hp
      cases hT : buildAllGo w wsPath ws rest with
      | nil =>
        rw [hT] at hp
        simp at hp
      | cons y ys =>
        rw [hT, List.dropLast_cons₂] at hp
        rcases List.mem_cons.mp hp with h | h
        · rw [h]; exact ho
        · exact ih p (by rw [hT]; exact h)
    cases hrep : lookupRepo ws name with
    | none =>
      intro p hp
      rw [buildAllGo, hrep] at hp
      exact step RepoOutcome.notRegistered (by decide) p hp
    | some repo =>
      by_cases hs : statOk w.fs (joinPath wsPath repo.path) = true
      · by_cases hb : buildRepoOk w wsPath ws name = true
        · intro p hp
          have hp' : p ∈ ((name, RepoOutcome.built)
              :: buildAllGo w wsPath ws rest).dropLast := by
            have he : buildAllGo w wsPath ws (name :: rest)
                = (name, RepoOutcome.built) :: buildAllGo w wsPath ws rest := by
              simp [buildAllGo, hrep, hs, hb]
            rw [he] at hp
            exact hp
          exact step RepoOutcome.built (by decide) p hp'
        · intro p hp
          have hb' : buildRepoOk w wsPath ws name = false := by simpa using hb
          have he : buildAllGo w wsPath ws (name :: rest)
              = [(name, RepoOutcome.failed)] := by
            simp [buildAllGo, hrep, hs, hb']
          rw [he] at hp
          simp at hp
      · intro p hp
        have hs' : statOk w.fs (joinPath wsPath repo.path) = false := by
          simpa using hs
        have he : buildAllGo w wsPath ws (name :: rest)
            = (name, RepoOutcome.notCloned) :: buildAllGo w wsPath ws rest := by
          simp [buildAllGo, hrep, hs']
        rw [he] at hp
        exact step RepoOutcome.notCloned (by decide) p hp

/-- A `buildAllRepos` trace that is shorter than the order it was given
ends in a failure: the only way the loop stops early is a failing
`buildRepo`, after which nothing further is attempted. -/
lemma buildAllGo_short (w : World) (wsPath : String) (ws : Registry) :
    ∀ l : List String,
      (buildAllGo w wsPath ws l).length < l.length →
      ∃ n, (buildAllGo w wsPath ws l).getLast? = some (n, RepoOutcome.failed) := by
  intro l
  induction l with
  | nil => intro h; simp [buildAllGo] at h
  | cons name rest ih =>
    have step : (buildAllGo w wsPath ws rest).length < rest.length →
        ∀ o : RepoOutcome,
        ∃ n, ((name, o) :: buildAllGo w wsPath ws rest).getLast?
          = some (n, RepoOutcome.failed) := by
      intro h o
      obtain ⟨n, hn⟩ := ih h
      cases hT : buildAllGo w wsPath ws rest with
      | nil => rw [hT] at hn; simp at hn
      | cons y ys =>
        rw [hT] at hn
        exact ⟨n, by rw [List.getLast?_cons_cons]; exact hn⟩
    cases hrep : lookupRepo ws name with
    | none =>
      intro h
      rw [buildAllGo, hrep] at h ⊢
      exact step (by simpa using h) RepoOutcome.notRegistered
    | some repo =>
      by_cases hs : statOk w.fs (joinPath wsPath repo.path) = true
      · by_cases hb : buildRepoOk w wsPath ws name = true
        · have he : buildAllGo w wsPath ws (name :: rest)
              = (name, RepoOutcome.built) :: buildAllGo w wsPath ws rest := by
            simp [buildAllGo, hrep, hs, hb]
          intro h
          rw [he] at h ⊢
          exact step (by simpa using h) RepoOutcome.built
        · have hb' : buildRepoOk w wsPath ws name = false := by simpa using hb
          have he : buildAllGo w wsPath ws (name :: rest)
              = [(name, RepoOutcome.failed)] := by
            simp [buildAllGo, hrep, hs, hb']
          intro h
          rw [he]
          exact ⟨name, rfl⟩
      · have hs' : statOk w.fs (joinPath wsPath repo.path) = false := by
          simpa using hs
        have he : buildAllGo w wsPath ws (name :: rest)
            = (name, RepoOutcome.notCloned) :: buildAllGo w wsPath ws rest := by
          simp [buildAllGo, hrep, hs']
        intro h
        rw [he] at h ⊢
        exact step (by simpa using h) RepoOutcome.notCloned

/-- C6: `buildAllRepos` walks the smart build order sequentially.  The
trace covers an initial segment of the order; every entry before the last
is a skip or a success (missing working directories are reported as
`notCloned` and are not fatal); and if the loop stopped before exhausting
the order, its last entry is the first build failure — no repository after
it is attempted. -/
theorem c6_buildAll_sequencing (w : World) (wsPath : String) (ws : Registry) :
    (buildAllGo w wsPath ws (getSmartBuildOrder ws)).map Prod.fst
      = (getSmartBuildOrder ws).take
          (buildAllGo w wsPath ws (getSmartBuildOrder ws)).length
  ∧ (∀ p ∈ (buildAllGo w wsPath ws (getSmartBuildOrder ws)).dropLast,
      p.2 ≠ RepoOutcome.failed)
  ∧ ((buildAllGo w wsPath ws (getSmartBuildOrder ws)).length
        < (getSmartBuildOrder ws).length →
      ∃ n, (buildAllGo w wsPath ws (getSmartBuildOrder ws)).getLast?
        = some (n, RepoOutcome.failed)) :=
  ⟨buildAllGo_take w wsPath ws (getSmartBuildOrder ws),
   buildAllGo_dropLast w wsPath ws (getSmartBuildOrder ws),
   buildAllGo_short w wsPath ws (getSmartBuildOrder ws)⟩

theorem c6_witness :
    buildAllGo w5 "/w" ws5 (getSmartBuildOrder ws5)
      = [("r1", RepoOutcome.built), ("r2", RepoOutcome.built),
         ("r3", RepoOutcome.failed)] ∧
    (∃ n, (buildAllGo w5 "/w" ws5 (getSmartBuildOrder ws5)).getLast?
      = some (n, RepoOutcome.failed)) := by
  refine ⟨by decide, ?_⟩
  exact (c6_buildAll_sequencing w5 "/w" ws5).2.2 (by decide)

theorem c3_amended_witness :
    DirectLink fsC3 "/w/app" "sdk" "/w/model/out" "/w/app/node_modules/sdk"
      = some (Entry.symlink "/w/model/out") ∧
    DirectLink fsC3 "/w/app" "sdk" "/w/model/out"
      "/w/app/node_modules/sdk/data.txt" = none := by
  refine ⟨?_, ?_⟩
  · exact (c3_directLink_overwrites fsC3 "/w/app" "sdk" "/w/model/out").1
  · exact (c3_directLink_overwrites fsC3 "/w/app" "sdk" "/w/model/out").2
      "/w/app/node_modules/sdk/data.txt" (by decide)

lemma count_toggle (m : String) (p q : String → Bool)
    (hpq : ∀ u, u ≠ m → p u = q u) (hpm : p m = false) (hqm : q m = true) :
    ∀ ks : List String, ks.Nodup → m ∈ ks →
      (ks.filter q).length = (ks.filter p).length + 1 := by
  intro ks
  induction ks with
  | nil => intro _ h; cases h
  | cons a l ih =>
    intro hnd hm
    rcases List.mem_cons.mp hm with rfl | hml
    · have hml : m ∉ l := (List.nodup_cons.mp hnd).1
      have hfilter : l.filter p = l.filter q :=
        List.filter_congr (fun u hu => hpq u (fun he => hml (he ▸ hu)))
      simp [List.filter_cons, hpm, hqm, hfilter]
    · have hne : a ≠ m := by
        intro he
        subst he
        exact (List.nodup_cons.mp hnd).1 hml
      have hpa : p a = q a := hpq a hne
      have ihl := ih (List.nodup_cons.mp hnd).2 hml
      cases hqa : q a with
      | false =>
        have hpa' : p a = false := by rw [hpa, hqa]
        simp [List.filter_cons, hpa', hqa, ihl]
      | true =>
        have hpa' : p a = true := by rw [hpa, hqa]
        simp only [List.filter_cons, hpa', hqa, if_pos, List.length_cons]
        omega

lemma graphInv_push (ks : List String) (hksnd : ks.Nodup) (d : String → Int)
    (dep : String → List String) (m name : String) (hI : GraphInv ks d dep)
    (hm : m ∈ ks) (hname : name ∈ ks) (hnew : name ∉ dep m) :
    GraphInv ks (bump d name) (pushDep dep m name) := by
  obtain ⟨h1, h2, h3, h4⟩ := hI
  refine ⟨?_, ?_, ?_, ?_⟩
  · intro v
    by_cases hv : v = name
    · subst hv
      have hcount : (ks.filter (fun u => decide (v ∈ pushDep dep m v u))).length
          = (ks.filter (fun u => decide (v ∈ dep u))).length + 1 := by
        apply count_toggle m (fun u => decide (v ∈ dep u))
          (fun u => decide (v ∈ pushDep dep m v u)) ?_ ?_ ?_ ks hksnd hm
        · intro u hu
          simp [pushDep, hu]
        · simpa using hnew
        · simp [pushDep]
      simp only [bump, if_pos rfl]
      rw [h1 v]
      unfold predCount
      rw [hcount]
      push_cast
      ring
    · have hsame : ks.filter (fun u => decide (v ∈ pushDep dep m name u))
          = ks.filter (fun u => decide (v ∈ dep u)) := by
        apply List.filter_congr
        intro u _
        by_cases hum : u = m
        · subst hum
          simp [pushDep, hv]
        · simp [pushDep, hum]
      simp only [bump, if_neg hv]
      rw [h1 v]
      unfold predCount
      rw [hsame]
  · intro u
    by_cases hum : u = m
    · subst hum
      simp [pushDep, List.nodup_append, h2 u, hnew]
    · simp [pushDep, hum, h2 u]
  · intro u v hv
    by_cases hum : u = m
    · subst hum
      simp [pushDep] at hv
      rcases hv with hv | rfl
      · exact h3 _ _ hv
      · exact hname
    · simp [pushDep, hum] at hv
      exact h3 u v hv
  · intro u hu
    by_cases hum : u = m
    · subst hum
      exact absurd hm hu
    · simp [pushDep, hum, h4 u hu]

lemma phaseA_inv (ks : List String) (hksnd : ks.Nodup) :
    ∀ (cursor : List String) (d : String → Int) (dep : String → List String),
      GraphInv ks d dep → cursor.Nodup → (∀ n ∈ cursor, n ∈ ks) →
      (∀ n ∈ cursor, ∀ u, n ∉ dep u) →
      GraphInv ks (phaseA ks cursor d dep).1 (phaseA ks cursor d dep).2 := by
  intro cursor
  induction cursor with
  | nil => intro d dep hI _ _ _; simpa [phaseA] using hI
  | cons n rest ih =>
    intro d dep hI hnd hsub hfresh
    have hnd' := (List.nodup_cons.mp hnd).2
    have hninrest := (List.nodup_cons.mp hnd).1
    have hsub' : ∀ x ∈ rest, x ∈ ks := fun x hx => hsub x (List.mem_cons_of_mem n hx)
    cases hapi : apiToModel n with
    | none =>
      simp only [phaseA, hapi]
      exact ih d dep hI hnd' hsub'
        (fun x hx => hfresh x (List.mem_cons_of_mem n hx))
    | some mn =>
      by_cases hmk : mn ∈ ks
      · simp only [phaseA, hapi, if_pos hmk]
        apply ih
        · exact graphInv_push ks hksnd d dep mn n hI hmk
            (hsub n (List.mem_cons_self n rest)) (hfresh n (List.mem_cons_self n rest) mn)
        · exact hnd'
        · exact hsub'
        · intro x hx u
          by_cases hum : u = mn
          · subst hum
            have hxn : x ≠ n := fun he => hninrest (he ▸ hx)
            simp [pushDep, hxn]
            exact hfresh x (List.mem_cons_of_mem n hx) u
          · simp [pushDep, hum]
            exact hfresh x (List.mem_cons_of_mem n hx) u
      · simp only [phaseA, hapi, if_neg hmk]
        exact ih d dep hI hnd' hsub'
          (fun x hx => hfresh x (List.mem_cons_of_mem n hx))

lemma phaseA_mem (ks : List String) :
    ∀ (cursor : List String) (d : String → Int) (dep : String → List String)
      (u v : String),
      v ∈ (phaseA ks cursor d dep).2 u ↔
        v ∈ dep u ∨ (v ∈ cursor ∧ apiToModel v = some u ∧ u ∈ ks) := by
  intro cursor
  induction cursor with
  | nil => intro d dep u v; simp [phaseA]
  | cons n rest ih =>
    intro d dep u v
    cases hapi : apiToModel n with
    | none =>
      simp only [phaseA, hapi]
      rw [ih]
      constructor
      · rintro (h | ⟨hv, hmv, hk⟩)
        · exact Or.inl h
        · exact Or.inr ⟨List.mem_cons_of_mem n hv, hmv, hk⟩
      · rintro (h | ⟨hv, hmv, hk⟩)
        · exact Or.inl h
        · rcases List.mem_cons.mp hv with rfl | hv'
          · rw [hapi] at hmv; cases hmv
          · exact Or.inr ⟨hv', hmv, hk⟩
    | some mn =>
      by_cases hmk : mn ∈ ks
      · simp only [phaseA, hapi, if_pos hmk]
        rw [ih]
        constructor
        · rintro (h | ⟨hv, hmv, hk⟩)
          · by_cases hum : u = mn
            · subst hum
              simp [pushDep] at h
              rcases h with h | heq
              · exact Or.inl h
              · subst heq
                exact Or.inr ⟨List.mem_cons_self v rest, hapi, hmk⟩
            · simp [pushDep, hum] at h
              exact Or.inl h
          · exact Or.inr ⟨List.mem_cons_of_mem n hv, hmv, hk⟩
        · rintro (h | ⟨hv, hmv, hk⟩)
          · left
            by_cases hum : u = mn
            · subst hum
              simp [pushDep]
              exact Or.inl h
            · simp [pushDep, hum]
              exact h
          · rcases List.mem_cons.mp hv with rfl | hv'
            · left
              have humn : mn = u := by
                rw [hapi] at hmv
                exact Option.some_inj.mp hmv
              subst humn
              simp [pushDep]
            · exact Or.inr ⟨hv', hmv, hk⟩
      · simp only [phaseA, hapi, if_neg hmk]
        rw [ih]
        constructor
        · rintro (h | ⟨hv, hmv, hk⟩)
          · exact Or.inl h
          · exact Or.inr ⟨List.mem_cons_of_mem n hv, hmv, hk⟩
        · rintro (h | ⟨hv, hmv, hk⟩)
          · exact Or.inl h
          · rcases List.mem_cons.mp hv with rfl | hv'
            · have humn : mn = u := by
                rw [hapi] at hmv
                exact Option.some_inj.mp hmv
              subst humn
              exact absurd hk hmk
            · exact Or.inr ⟨hv', hmv, hk⟩

lemma phaseBDeps_dep (ks : List String) (name : String) :
    ∀ (ds : List String) (d : String → Int) (dep : String → List String)
      (u : String),
      (phaseBDeps ks name ds d dep).2 u
        = dep u ++ (if u ∈ ks ∧ u ∈ ds ∧ name ∉ dep u then [name] else []) := by
  intro ds
  induction ds with
  | nil => intro d dep u; simp [phaseBDeps]
  | cons e ds' ih =>
    intro d dep u
    by_cases hek : e ∈ ks
    · by_cases hmem : name ∈ dep e
      · simp only [phaseBDeps, if_pos hek, if_pos hmem]
        rw [ih]
        congr 1
        apply if_congr _ rfl rfl
        constructor
        · rintro ⟨h1, h2, h3⟩
          exact ⟨h1, List.mem_cons_of_mem e h2, h3⟩
        · rintro ⟨h1, h2, h3⟩
          rcases List.mem_cons.mp h2 with he | h2'
          · exact absurd (he ▸ hmem) h3
          · exact ⟨h1, h2', h3⟩
      · simp only [phaseBDeps, if_pos hek, if_neg hmem]
        rw [ih]
        by_cases hue : u = e
        · subst hue
          have hpush : pushDep dep u name u = dep u ++ [name] := by simp [pushDep]
          have hnamein : name ∈ pushDep dep u name u := by simp [pushDep]
          rw [if_neg (fun h => h.2.2 hnamein),
            if_pos (show u ∈ ks ∧ u ∈ u :: ds' ∧ name ∉ dep u from
              ⟨hek, List.mem_cons_self u ds', hmem⟩), hpush]
          simp
        · have hpush : pushDep dep e name u = dep u := by simp [pushDep, hue]
          rw [hpush]
          congr 1
          apply if_congr _ rfl rfl
          constructor
          · rintro ⟨h1, h2, h3⟩
            exact ⟨h1, List.mem_cons_of_mem e h2, h3⟩
          · rintro ⟨h1, h2, h3⟩
            rcases List.mem_cons.mp h2 with he | h2'
            · exact absurd he hue
            · exact ⟨h1, h2', h3⟩
    · simp only [phaseBDeps, if_neg hek]
      rw [ih]
      congr 1
      apply if_congr _ rfl rfl
      constructor
      · rintro ⟨h1, h2, h3⟩
        exact ⟨h1, List.mem_cons_of_mem e h2, h3⟩
      · rintro ⟨h1, h2, h3⟩
        rcases List.mem_cons.mp h2 with he | h2'
        · exact absurd (he ▸ h1) hek
        · exact ⟨h1, h2', h3⟩

lemma phaseBDeps_inv (ks : List String) (hksnd : ks.Nodup) (name : String)
    (hname : name ∈ ks) :
    ∀ (ds : List String) (d : String → Int) (dep : String → List String),
      GraphInv ks d dep →
      GraphInv ks (phaseBDeps ks name ds d dep).1 (phaseBDeps ks name ds d dep).2 := by
  intro ds
  induction ds with
  | nil => intro d dep hI; simpa [phaseBDeps] using hI
  | cons e ds' ih =>
    intro d dep hI
    by_cases hek : e ∈ ks
    · by_cases hmem : name ∈ dep e
      · simp only [phaseBDeps, if_pos hek, if_pos hmem]
        exact ih d dep hI
      · simp only [phaseBDeps, if_pos hek, if_neg hmem]
        exact ih _ _ (graphInv_push ks hksnd d dep e name hI hek hname hmem)
    · simp only [phaseBDeps, if_neg hek]
      exact ih d dep hI

lemma phaseB_inv (ks : List String) (hksnd : ks.Nodup) :
    ∀ (cursor : Registry) (d : String → Int) (dep : String → List String),
      GraphInv ks d dep → (∀ p ∈ cursor, p.1 ∈ ks) →
      GraphInv ks (phaseB ks cursor d dep).1 (phaseB ks cursor d dep).2 := by
  intro cursor
  induction cursor with
  | nil => intro d dep hI _; simpa [phaseB] using hI
  | cons pr rest ih =>
    intro d dep hI hsub
    obtain ⟨name, rd⟩ := pr
    simp only [phaseB]
    exact ih _ _
      (phaseBDeps_inv ks hksnd name (hsub (name, rd) (List.mem_cons_self _ _))
        rd.dependencies d dep hI)
      (fun p hp => hsub p (List.mem_cons_of_mem _ hp))

lemma phaseB_mem (ks : List String) :
    ∀ (cursor : Registry) (d : String → Int) (dep : String → List String)
      (u v : String),
      v ∈ (phaseB ks cursor d dep).2 u ↔
        v ∈ dep u ∨ ∃ rd, (v, rd) ∈ cursor ∧ u ∈ rd.dependencies ∧ u ∈ ks := by
  intro cursor
  induction cursor with
  | nil => intro d dep u v; simp [phaseB]
  | cons pr rest ih =>
    intro d dep u v
    obtain ⟨w, rd⟩ := pr
    simp only [phaseB]
    rw [ih]
    have hstep := phaseBDeps_dep ks w rd.dependencies d dep u
    constructor
    · rintro (h | ⟨rd', hmem, hu, hk⟩)
      · rw [hstep] at h
        rcases List.mem_append.mp h with h | h
        · exact Or.inl h
        · by_cases hc : u ∈ ks ∧ u ∈ rd.dependencies ∧ w ∉ dep u
          · rw [if_pos hc] at h
            have hv : v = w := List.mem_singleton.mp h
            subst hv
            exact Or.inr ⟨rd, List.mem_cons_self _ _, hc.2.1, hc.1⟩
          · rw [if_neg hc] at h
            cases h
      · exact Or.inr ⟨rd', List.mem_cons_of_mem _ hmem, hu, hk⟩
    · rintro (h | ⟨rd', hmem, hu, hk⟩)
      · left
        rw [hstep]
        exact List.mem_append_left _ h
      · rcases List.mem_cons.mp hmem with he | hmem'
        · injection he with hv hrd
          subst hv
          subst hrd
          by_cases hw : v ∈ dep u
          · left
            rw [hstep]
            exact List.mem_append_left _ hw
          · left
            rw [hstep]
            apply List.mem_append_right
            rw [if_pos ⟨hk, hu, hw⟩]
            exact List.mem_singleton.mpr rfl
        · exact Or.inr ⟨rd', hmem', hu, hk⟩

lemma lookupRepo_mem :
    ∀ (repos : Registry), (keys repos).Nodup → ∀ (n : String) (rd : RepoDef),
      ((n, rd) ∈ repos ↔ lookupRepo repos n = some rd) := by
  intro repos
  induction repos with
  | nil => intro _ n rd; simp [lookupRepo]
  | cons pr rest ih =>
    intro hnd n rd
    obtain ⟨a, b⟩ := pr
    have hnda : a ∉ keys rest := by
      have : (a :: keys rest).Nodup := by simpa [keys] using hnd
      exact (List.nodup_cons.mp this).1
    have hnd' : (keys rest).Nodup := by
      have : (a :: keys rest).Nodup := by simpa [keys] using hnd
      exact (List.nodup_cons.mp this).2
    constructor
    · intro h
      rcases List.mem_cons.mp h with he | h'
      · injection he with h1 h2
        subst h1
        subst h2
        simp [lookupRepo]
      · have hn_in : n ∈ keys rest := List.mem_map.mpr ⟨(n, rd), h', rfl⟩
        have hane : ¬ (a = n) := fun he => hnda (he ▸ hn_in)
        have hres := (ih hnd' n rd).mp h'
        simp only [lookupRepo, List.find?] at hres ⊢
        have hbeq : (a == n) = false := by
          simpa using hane
        rw [hbeq]
        exact hres
    · intro h
      by_cases hane : a = n
      · subst hane
        simp [lookupRepo, List.find?] at h
        subst h
        exact List.mem_cons_self _ _
      · have hbeq : (a == n) = false := by simpa using hane
        simp only [lookupRepo, List.find?, hbeq] at h
        exact List.mem_cons_of_mem _ ((ih hnd' n rd).mpr h)

lemma edgeB_iff (repos : Registry) (u v : String) :
    edgeB repos u v = true ↔
      u ∈ keys repos ∧ v ∈ keys repos ∧
        (apiToModel v = some u ∨
          ∃ rd, lookupRepo repos v = some rd ∧ u ∈ rd.dependencies) := by
  cases hl : lookupRepo repos v with
  | none => simp [edgeB, hl, and_assoc]
  | some rd => simp [edgeB, hl, and_assoc]

lemma edgeB_keys (repos : Registry) (u v : String) (h : edgeB repos u v = true) :
    u ∈ keys repos ∧ v ∈ keys repos := by
  have := (edgeB_iff repos u v).mp h
  exact ⟨this.1, this.2.1⟩

lemma getSmartBuildOrder_eq (repos : Registry) :
    getSmartBuildOrder repos
      = addMissing (kahnRun (graphOf repos).2 ((keys repos).length + 1)
          ((keys repos).filter (fun n => (graphOf repos).1 n = 0))
          (graphOf repos).1 []) (keys repos) := rfl

lemma graphInv_graphOf (repos : Registry) (hnd : (keys repos).Nodup) :
    GraphInv (keys repos) (graphOf repos).1 (graphOf repos).2 := by
  have hinit : GraphInv (keys repos) (fun _ => 0) (fun _ => []) := by
    refine ⟨?_, ?_, ?_, ?_⟩
    · intro v; simp [predCount]
    · intro u; simp
    · intro u v h; simp at h
    · intro u _; rfl
  have hA := phaseA_inv (keys repos) hnd (keys repos) _ _ hinit hnd
    (fun n h => h) (fun n _ u h => by simp at h)
  exact phaseB_inv (keys repos) hnd repos _ _ hA
    (fun p hp => List.mem_map.mpr ⟨p, hp, rfl⟩)

lemma graphOf_mem (repos : Registry) (hnd : (keys repos).Nodup) (u v : String) :
    v ∈ (graphOf repos).2 u ↔ edgeB repos u v = true := by
  have h1 : v ∈ (graphOf repos).2 u ↔
      (v ∈ (phaseA (keys repos) (keys repos) (fun _ => 0) (fun _ => [])).2 u ∨
        ∃ rd, (v, rd) ∈ repos ∧ u ∈ rd.dependencies ∧ u ∈ keys repos) :=
    phaseB_mem (keys repos) repos _ _ u v
  rw [h1, phaseA_mem, edgeB_iff]
  simp only [List.not_mem_nil, false_or]
  constructor
  · rintro (⟨hv, ham, hu⟩ | ⟨rd, hmem, hud, huk⟩)
    · exact ⟨hu, hv, Or.inl ham⟩
    · refine ⟨huk, ?_, Or.inr ⟨rd, (lookupRepo_mem repos hnd v rd).mp hmem, hud⟩⟩
      exact List.mem_map.mpr ⟨(v, rd), hmem, rfl⟩
  · rintro ⟨hu, hv, ham | ⟨rd, hl, hud⟩⟩
    · exact Or.inl ⟨hv, ham, hu⟩
    · exact Or.inr ⟨rd, (lookupRepo_mem repos hnd v rd).mpr hl, hud, hu⟩

lemma sub_count_le (ks ord : List String) (p : String → Bool)
    (hnd : ord.Nodup) (hsub : ∀ x ∈ ord, x ∈ ks) :
    (ord.filter p).length ≤ (ks.filter p).length :=
  ((List.subperm_of_subset hnd (fun x hx => hsub x hx)).filter p).length_le

lemma sub_count_eq_mem (ks ord : List String) (p : String → Bool)
    (hnd : ord.Nodup) (hsub : ∀ x ∈ ord, x ∈ ks)
    (heq : (ord.filter p).length = (ks.filter p).length) :
    ∀ u ∈ ks, p u = true → u ∈ ord := by
  have hsp : List.Subperm (ord.filter p) (ks.filter p) :=
    (List.subperm_of_subset hnd (fun x hx => hsub x hx)).filter p
  have hperm : List.Perm (ord.filter p) (ks.filter p) :=
    hsp.perm_of_length_le (le_of_eq heq.symm)
  intro u hu hp
  have h1 : u ∈ ks.filter p := List.mem_filter.mpr ⟨hu, hp⟩
  have h2 : u ∈ ord.filter p := hperm.mem_iff.mpr h1
  exact (List.mem_filter.mp h2).1

lemma sub_count_eq_of_mem (ks ord : List String) (p : String → Bool)
    (hksnd : ks.Nodup) (hall : ∀ u ∈ ks, p u = true → u ∈ ord) :
    (ks.filter p).length ≤ (ord.filter p).length := by
  apply List.Subperm.length_le
  apply List.subperm_of_subset (hksnd.filter p)
  intro x hx
  obtain ⟨hxk, hxp⟩ := List.mem_filter.mp hx
  exact List.mem_filter.mpr ⟨hall x hxk hxp, hxp⟩

lemma relax1_queue : ∀ (vs queue : List String) (d : String → Int), vs.Nodup →
    (relax1 vs queue d).1 = queue ++ vs.filter (fun v => decide (d v = 1)) := by
  intro vs
  induction vs with
  | nil => intro queue d _; simp [relax1]
  | cons v vs' ih =>
    intro queue d hnd
    have hv : v ∉ vs' := (List.nodup_cons.mp hnd).1
    have hnd' := (List.nodup_cons.mp hnd).2
    simp only [relax1]
    rw [ih _ _ hnd']
    have hfil : vs'.filter (fun x => decide ((if x = v then d v - 1 else d x) = 1))
        = vs'.filter (fun x => decide (d x = 1)) := by
      apply List.filter_congr
      intro x hx
      have hxv : ¬ (x = v) := fun he => hv (he ▸ hx)
      simp [hxv]
    rw [hfil]
    by_cases hdv : d v - 1 = 0
    · have hdv1 : d v = 1 := by omega
      rw [if_pos hdv]
      simp [List.filter_cons, hdv1]
    · have hdv1 : ¬ (d v = 1) := by omega
      rw [if_neg hdv]
      simp [List.filter_cons, hdv1]

lemma relax1_deg : ∀ (vs queue : List String) (d : String → Int) (x : String),
    vs.Nodup →
    (relax1 vs queue d).2 x = if x ∈ vs then d x - 1 else d x := by
  intro vs
  induction vs with
  | nil => intro queue d x _; simp [relax1]
  | cons v vs' ih =>
    intro queue d x hnd
    have hv : v ∉ vs' := (List.nodup_cons.mp hnd).1
    have hnd' := (List.nodup_cons.mp hnd).2
    simp only [relax1]
    rw [ih _ _ _ hnd']
    by_cases hxv : x = v
    · subst hxv
      simp [hv]
    · simp [hxv, List.mem_cons]

lemma kahnInv_step (ks : List String) (dep : String → List String)
    (hksnd : ks.Nodup) (hdepnd : ∀ u, (dep u).Nodup)
    (hdepsub : ∀ u v, v ∈ dep u → v ∈ ks)
    (hdepdom : ∀ u, u ∉ ks → dep u = [])
    (c : String) (rest : List String) (d : String → Int) (ord : List String)
    (hInv : KahnInv ks dep (c :: rest) d ord) :
    KahnInv ks dep (relax1 (dep c) rest d).1 (relax1 (dep c) rest d).2
      (ord ++ [c]) := by
  obtain ⟨hnd, hsub, hcount, hzero, hpair, hclosed⟩ := hInv
  have hordnd : ord.Nodup := (List.nodup_append.mp hnd).1
  have hdisj : List.Disjoint ord (c :: rest) := (List.nodup_append.mp hnd).2.2
  have hcq : c ∈ c :: rest := List.mem_cons_self c rest
  have hck : c ∈ ks := hsub c (List.mem_append_right ord hcq)
  have hordsub : ∀ x ∈ ord, x ∈ ks := fun x hx => hsub x (List.mem_append_left _ hx)
  have hnonneg : ∀ v, 0 ≤ d v := by
    intro v
    rw [hcount v]
    have h := sub_count_le ks ord (fun u => decide (v ∈ dep u)) hordnd hordsub
    unfold predCount
    omega
  have hdc : d c = 0 := (hzero c hck).mpr (Or.inr hcq)
  have hpredc : ∀ u, c ∈ dep u → u ∈ ord := by
    intro u hu
    have huk : u ∈ ks := by
      by_contra hnk
      rw [hdepdom u hnk] at hu
      simp at hu
    have heq : (ord.filter (fun u => decide (c ∈ dep u))).length
        = (ks.filter (fun u => decide (c ∈ dep u))).length := by
      have h := hcount c
      rw [hdc] at h
      unfold predCount at h
      omega
    exact sub_count_eq_mem ks ord _ hordnd hordsub heq u huk (by simpa using hu)
  have hcnotdep : c ∉ dep c := fun h => hdisj (hpredc c h) hcq
  have hdepc_pos : ∀ v ∈ dep c, d v ≠ 0 := by
    intro v hv h0
    have hvk : v ∈ ks := hdepsub c v hv
    have heq : (ord.filter (fun u => decide (v ∈ dep u))).length
        = (ks.filter (fun u => decide (v ∈ dep u))).length := by
      have h := hcount v
      rw [h0] at h
      unfold predCount at h
      omega
    have hco : c ∈ ord :=
      sub_count_eq_mem ks ord _ hordnd hordsub heq c hck (by simpa using hv)
    exact hdisj hco hcq
  have hq : (relax1 (dep c) rest d).1
      = rest ++ (dep c).filter (fun v => decide (d v = 1)) :=
    relax1_queue (dep c) rest d (hdepnd c)
  have hd : ∀ x, (relax1 (dep c) rest d).2 x = if x ∈ dep c then d x - 1 else d x :=
    fun x => relax1_deg (dep c) rest d x (hdepnd c)
  have hnew_mem : ∀ v ∈ (dep c).filter (fun v => decide (d v = 1)),
      v ∈ dep c ∧ d v = 1 := by
    intro v hv
    have h := List.mem_filter.mp hv
    exact ⟨h.1, by simpa using h.2⟩
  have hnew_not : ∀ v ∈ (dep c).filter (fun v => decide (d v = 1)),
      v ∉ ord ∧ v ∉ c :: rest := by
    intro v hv
    obtain ⟨hvd, hv1⟩ := hnew_mem v hv
    have hvk := hdepsub c v hvd
    have hne : d v ≠ 0 := by omega
    constructor
    · intro hvo
      exact hne ((hzero v hvk).mpr (Or.inl hvo))
    · intro hvq
      exact hne ((hzero v hvk).mpr (Or.inr hvq))
  rw [hq]
  refine ⟨?_, ?_, ?_, ?_, ?_, ?_⟩
  · have hshape : (ord ++ [c]) ++ (rest ++ (dep c).filter (fun v => decide (d v = 1)))
        = (ord ++ c :: rest) ++ (dep c).filter (fun v => decide (d v = 1)) := by
      simp
    rw [hshape]
    apply hnd.append ((hdepnd c).filter _)
    intro a ha han
    obtain ⟨hano, hanq⟩ := hnew_not a han
    rcases List.mem_append.mp ha with h | h
    · exact hano h
    · exact hanq h
  · intro x hx
    rcases List.mem_append.mp hx with h | h
    · rcases List.mem_append.mp h with h1 | h1
      · exact hordsub x h1
      · rw [List.mem_singleton.mp h1]
        exact hck
    · rcases List.mem_append.mp h with h1 | h1
      · exact hsub x (List.mem_append_right ord (List.mem_cons_of_mem c h1))
      · exact hdepsub c x (hnew_mem x h1).1
  · intro v
    rw [hd v]
    have hbase := hcount v
    unfold predCount at hbase ⊢
    rw [List.filter_append]
    by_cases hvc : v ∈ dep c
    · rw [if_pos hvc]
      have hfc : [c].filter (fun u => decide (v ∈ dep u)) = [c] := by
        simp [List.filter_cons, hvc]
      rw [hfc, List.length_append, List.length_singleton]
      push_cast
      omega
    · rw [if_neg hvc]
      have hfc : [c].filter (fun u => decide (v ∈ dep u)) = [] := by
        simp [List.filter_cons, hvc]
      rw [hfc, List.length_append, List.length_nil]
      push_cast
      omega
  · intro v hvk
    rw [hd v]
    by_cases hvc : v ∈ dep c
    · rw [if_pos hvc]
      have hvne := hdepc_pos v hvc
      have hvnn := hnonneg v
      constructor
      · intro h1
        right
        apply List.mem_append_right
        refine List.mem_filter.mpr ⟨hvc, ?_⟩
        simp only [decide_eq_true_eq]
        omega
      · intro h
        rcases h with h | h
        · rcases List.mem_append.mp h with ho | hc1
          · exact absurd ((hzero v hvk).mpr (Or.inl ho)) hvne
          · rw [List.mem_singleton.mp hc1] at hvc
            exact absurd hvc hcnotdep
        · rcases List.mem_append.mp h with hr | hn
          · exact absurd ((hzero v hvk).mpr (Or.inr (List.mem_cons_of_mem c hr))) hvne
          · have h1 := (hnew_mem v hn).2
            omega
    · rw [if_neg hvc]
      have hnn : v ∉ (dep c).filter (fun v => decide (d v = 1)) :=
        fun hn => hvc (hnew_mem v hn).1
      rw [hzero v hvk]
      constructor
      · rintro (ho | hq2)
        · exact Or.inl (List.mem_append_left _ ho)
        · rcases List.mem_cons.mp hq2 with he | hr
          · exact Or.inl (List.mem_append_right _ (by rw [he]; exact List.mem_singleton_self c))
          · exact Or.inr (List.mem_append_left _ hr)
      · rintro (h | h)
        · rcases List.mem_append.mp h with ho | hc1
          · exact Or.inl ho
          · exact Or.inr (by rw [List.mem_singleton.mp hc1]; exact hcq)
        · rcases List.mem_append.mp h with hr | hn
          · exact Or.inr (List.mem_cons_of_mem c hr)
          · exact absurd hn hnn
  · rw [List.pairwise_append]
    refine ⟨hpair, List.pairwise_singleton _ _, ?_⟩
    intro a ha b hb
    rw [List.mem_singleton.mp hb]
    intro hadep
    exact hdisj (hclosed a ha c hadep) hcq
  · intro a ha u hu
    rcases List.mem_append.mp ha with ho | hc1
    · exact List.mem_append_left _ (hclosed a ho u hu)
    · rw [List.mem_singleton.mp hc1] at hu
      exact List.mem_append_left _ (hpredc u hu)

/-- In a finite acyclic graph, a nonempty set in which every node has a
predecessor inside the set cannot exist. -/
lemma no_source_cycle (rel : String → String → Prop) (ks : List String)
    (hacyc : ∀ x, ¬ Relation.TransGen rel x x)
    (S : Set String) (hne : S.Nonempty) (hSk : ∀ v ∈ S, v ∈ ks)
    (hpred : ∀ v ∈ S, ∃ u ∈ S, rel u v) : False := by
  have hfin : Finite {x : String // x ∈ ks} := ks.finite_toSet.to_subtype
  let r : {x : String // x ∈ ks} → {x : String // x ∈ ks} → Prop :=
    fun a b => Relation.TransGen rel a.1 b.1
  haveI : IsTrans {x : String // x ∈ ks} r := ⟨fun a b c hab hbc => hab.trans hbc⟩
  haveI : IsIrrefl {x : String // x ∈ ks} r := ⟨fun a h => hacyc a.1 h⟩
  have hwf : WellFounded r := Finite.wellFounded_of_trans_of_irrefl r
  obtain ⟨v0, hv0⟩ := hne
  obtain ⟨m, hmS, hmin⟩ := hwf.has_min {a | a.1 ∈ S} ⟨⟨v0, hSk v0 hv0⟩, hv0⟩
  obtain ⟨u, huS, hrel⟩ := hpred m.1 hmS
  exact hmin ⟨u, hSk u huS⟩ huS (Relation.TransGen.single hrel)

lemma kahnRun_props (ks : List String) (dep : String → List String)
    (hksnd : ks.Nodup) (hdepnd : ∀ u, (dep u).Nodup)
    (hdepsub : ∀ u v, v ∈ dep u → v ∈ ks)
    (hdepdom : ∀ u, u ∉ ks → dep u = []) :
    ∀ (fuel : Nat) (queue : List String) (d : String → Int) (ord : List String),
      KahnInv ks dep queue d ord →
      (kahnRun dep fuel queue d ord).Nodup
      ∧ (∀ x ∈ kahnRun dep fuel queue d ord, x ∈ ks)
      ∧ List.Pairwise (fun a b => a ∉ dep b) (kahnRun dep fuel queue d ord)
      ∧ (∀ a ∈ kahnRun dep fuel queue d ord, ∀ u,
          a ∈ dep u → u ∈ kahnRun dep fuel queue d ord) := by
  intro fuel
  induction fuel with
  | zero =>
    intro queue d ord hInv
    obtain ⟨hnd, hsub, _, _, hpair, hclosed⟩ := hInv
    simp only [kahnRun]
    exact ⟨(List.nodup_append.mp hnd).1,
      fun x hx => hsub x (List.mem_append_left _ hx), hpair, hclosed⟩
  | succ fuel ih =>
    intro queue d ord hInv
    cases queue with
    | nil =>
      obtain ⟨hnd, hsub, _, _, hpair, hclosed⟩ := hInv
      simp only [kahnRun]
      exact ⟨(List.nodup_append.mp hnd).1,
        fun x hx => hsub x (List.mem_append_left _ hx), hpair, hclosed⟩
    | cons c rest =>
      simp only [kahnRun]
      exact ih _ _ _
        (kahnInv_step ks dep hksnd hdepnd hdepsub hdepdom c rest d ord hInv)

lemma kahnRun_complete (ks : List String) (dep : String → List String)
    (hksnd : ks.Nodup) (hdepnd : ∀ u, (dep u).Nodup)
    (hdepsub : ∀ u v, v ∈ dep u → v ∈ ks)
    (hdepdom : ∀ u, u ∉ ks → dep u = [])
    (hacyc : ∀ x, ¬ Relation.TransGen (fun u v => v ∈ dep u) x x) :
    ∀ (fuel : Nat) (queue : List String) (d : String → Int) (ord : List String),
      KahnInv ks dep queue d ord →
      ks.length ≤ fuel + ord.length →
      ∀ k ∈ ks, k ∈ kahnRun dep fuel queue d ord := by
  intro fuel
  induction fuel with
  | zero =>
    intro queue d ord hInv hlen k hk
    obtain ⟨hnd, hsub, _, _, _, _⟩ := hInv
    simp only [kahnRun]
    have hordnd : ord.Nodup := (List.nodup_append.mp hnd).1
    have hordsub : ord ⊆ ks := fun x hx => hsub x (List.mem_append_left _ hx)
    have hsp : List.Subperm ord ks := List.subperm_of_subset hordnd hordsub
    have hperm : List.Perm ord ks := hsp.perm_of_length_le (by simpa using hlen)
    exact hperm.mem_iff.mpr hk
  | succ fuel ih =>
    intro queue d ord hInv hlen k hk
    cases queue with
    | nil =>
      obtain ⟨hnd, hsub, hcount, hzero, hpair, hclosed⟩ := hInv
      simp only [kahnRun]
      by_contra hko
      have hordnd : ord.Nodup := (List.nodup_append.mp hnd).1
      have hordsub : ∀ x ∈ ord, x ∈ ks := fun x hx => hsub x (List.mem_append_left _ hx)
      have hpred : ∀ v ∈ {v : String | v ∈ ks ∧ v ∉ ord}, ∃ u ∈ {v : String | v ∈ ks ∧ v ∉ ord}, v ∈ dep u := by
        intro v hv
        obtain ⟨hvk, hvo⟩ := hv
        have hdv : d v ≠ 0 := by
          intro h0
          rcases (hzero v hvk).mp h0 with h | h
          · exact hvo h
          · simp at h
        by_contra hnone
        push_neg at hnone
        have hall : ∀ u ∈ ks, (fun u => decide (v ∈ dep u)) u = true → u ∈ ord := by
          intro u hu hpu
          by_contra huo
          exact hnone u ⟨hu, huo⟩ (by simpa using hpu)
        have hge := sub_count_eq_of_mem ks ord (fun u => decide (v ∈ dep u)) hksnd hall
        have hle := sub_count_le ks ord (fun u => decide (v ∈ dep u)) hordnd hordsub
        apply hdv
        have h := hcount v
        unfold predCount at h
        omega
      exact no_source_cycle (fun u v => v ∈ dep u) ks hacyc
        {v : String | v ∈ ks ∧ v ∉ ord} ⟨k, hk, hko⟩ (fun v hv => hv.1) hpred
    | cons c rest =>
      simp only [kahnRun]
      apply ih _ _ _
        (kahnInv_step ks dep hksnd hdepnd hdepsub hdepdom c rest d ord hInv)
        ?_ k hk
      simp only [List.length_append, List.length_singleton]
      omega

lemma addMissing_mem : ∀ (ns ord : List String) (x : String),
    x ∈ addMissing ord ns ↔ x ∈ ord ∨ x ∈ ns := by
  intro ns
  induction ns with
  | nil => intro ord x; simp [addMissing]
  | cons n ns' ih =>
    intro ord x
    by_cases hn : n ∈ ord
    · rw [addMissing, if_pos hn, ih]
      constructor
      · rintro (h | h)
        · exact Or.inl h
        · exact Or.inr (List.mem_cons_of_mem n h)
      · rintro (h | h)
        · exact Or.inl h
        · rcases List.mem_cons.mp h with he | h'
          · exact Or.inl (he ▸ hn)
          · exact Or.inr h'
    · rw [addMissing, if_neg hn, ih]
      constructor
      · rintro (h | h)
        · rcases List.mem_append.mp h with h1 | h1
          · exact Or.inl h1
          · exact Or.inr (by rw [List.mem_singleton.mp h1]; exact List.mem_cons_self n ns')
        · exact Or.inr (List.mem_cons_of_mem n h)
      · rintro (h | h)
        · exact Or.inl (List.mem_append_left _ h)
        · rcases List.mem_cons.mp h with he | h'
          · exact Or.inl (List.mem_append_right _ (by rw [he]; exact List.mem_singleton_self n))
          · exact Or.inr h'

lemma addMissing_nodup : ∀ (ns ord : List String), ord.Nodup →
    (addMissing ord ns).Nodup := by
  intro ns
  induction ns with
  | nil => intro ord h; simpa [addMissing] using h
  | cons n ns' ih =>
    intro ord h
    by_cases hn : n ∈ ord
    · rw [addMissing, if_pos hn]
      exact ih ord h
    · rw [addMissing, if_neg hn]
      apply ih
      apply h.append (List.nodup_singleton n)
      intro a ha han
      rw [List.mem_singleton.mp han] at ha
      exact hn ha

lemma addMissing_eq_self : ∀ (ns ord : List String), (∀ n ∈ ns, n ∈ ord) →
    addMissing ord ns = ord := by
  intro ns
  induction ns with
  | nil => intro ord _; rfl
  | cons n ns' ih =>
    intro ord h
    rw [addMissing, if_pos (h n (List.mem_cons_self n ns'))]
    exact ih ord (fun x hx => h x (List.mem_cons_of_mem n hx))

lemma kahnInv_initial (repos : Registry) (hnd : (keys repos).Nodup) :
    KahnInv (keys repos) (graphOf repos).2
      ((keys repos).filter (fun n => decide ((graphOf repos).1 n = 0)))
      (graphOf repos).1 [] := by
  obtain ⟨h1, _, _, _⟩ := graphInv_graphOf repos hnd
  refine ⟨?_, ?_, ?_, ?_, ?_, ?_⟩
  · simpa using hnd.filter _
  · intro x hx
    simp only [List.nil_append] at hx
    exact (List.mem_filter.mp hx).1
  · intro v
    rw [h1 v]
    simp [predCount]
  · intro v hvk
    constructor
    · intro h0
      exact Or.inr (List.mem_filter.mpr ⟨hvk, by simpa using h0⟩)
    · rintro (h | h)
      · simp at h
      · have := (List.mem_filter.mp h).2
        simpa using this
  · exact List.Pairwise.nil
  · intro a ha
    simp at ha

lemma getSmartBuildOrder_perm (repos : Registry) (hnd : (keys repos).Nodup) :
    List.Perm (getSmartBuildOrder repos) (keys repos) := by
  obtain ⟨_, h2, h3, h4⟩ := graphInv_graphOf repos hnd
  have hprops := kahnRun_props (keys repos) (graphOf repos).2 hnd h2 h3 h4
    ((keys repos).length + 1) _ _ _ (kahnInv_initial repos hnd)
  obtain ⟨hknd, hksub, _, _⟩ := hprops
  rw [getSmartBuildOrder_eq]
  have hmem : ∀ x, x ∈ addMissing (kahnRun (graphOf repos).2 ((keys repos).length + 1)
      ((keys repos).filter (fun n => decide ((graphOf repos).1 n = 0)))
      (graphOf repos).1 []) (keys repos) ↔ x ∈ keys repos := by
    intro x
    rw [addMissing_mem]
    constructor
    · rintro (h | h)
      · exact hksub x h
      · exact h
    · exact Or.inr
  have hndfin := addMissing_nodup (keys repos) _ hknd
  apply List.Subperm.antisymm
  · exact List.subperm_of_subset hndfin (fun x hx => (hmem x).mp hx)
  · exact List.subperm_of_subset hnd (fun x hx => (hmem x).mpr hx)

lemma pairwise_rel_indexOf (l : List String) (hnd : l.Nodup)
    (R : String → String → Prop) (hp : List.Pairwise R l) (u v : String)
    (hu : u ∈ l) (hv : v ∈ l) (hne : u ≠ v) (hnR : ¬ R v u) :
    l.indexOf u < l.indexOf v := by
  have hiu : l.indexOf u < l.length := List.indexOf_lt_length.mpr hu
  have hiv : l.indexOf v < l.length := List.indexOf_lt_length.mpr hv
  have hgu : l[l.indexOf u] = u := List.getElem_indexOf hiu
  have hgv : l[l.indexOf v] = v := List.getElem_indexOf hiv
  rcases lt_trichotomy (l.indexOf u) (l.indexOf v) with h | h | h
  · exact h
  · exact absurd ((List.indexOf_inj hu hv).mp h) hne
  · exfalso
    apply hnR
    have hR := List.pairwise_iff_getElem.mp hp (l.indexOf v) (l.indexOf u) hiv hiu h
    rwa [hgu, hgv] at hR

lemma acyclic_dep_of_acyclic (repos : Registry) (hnd : (keys repos).Nodup)
    (hacyc : Acyclic repos) :
    ∀ x, ¬ Relation.TransGen (fun u v => v ∈ (graphOf repos).2 u) x x := by
  intro x hx
  apply hacyc x
  exact Relation.TransGen.mono
    (fun a b h => (graphOf_mem repos hnd a b).mp h) hx

/-- C1: on an acyclic registry (explicit dependency edges plus the static
model→API producer edges), `getSmartBuildOrder` returns a sequence that is
a permutation of the registered names (each exactly once), and for every
edge u→v the index of u precedes the index of v. -/
theorem c1_topological_order (repos : Registry) (hnd : (keys repos).Nodup)
    (hacyc : Acyclic repos) :
    List.Perm (getSmartBuildOrder repos) (keys repos)
    ∧ ∀ u v, edgeB repos u v = true →
        (getSmartBuildOrder repos).indexOf u
          < (getSmartBuildOrder repos).indexOf v := by
  obtain ⟨_, h2, h3, h4⟩ := graphInv_graphOf repos hnd
  have hinit := kahnInv_initial repos hnd
  have hprops := kahnRun_props (keys repos) (graphOf repos).2 hnd h2 h3 h4
    ((keys repos).length + 1) _ _ _ hinit
  obtain ⟨hknd, hksub, hkpair, _⟩ := hprops
  have hcomplete := kahnRun_complete (keys repos) (graphOf repos).2 hnd h2 h3 h4
    (acyclic_dep_of_acyclic repos hnd hacyc) ((keys repos).length + 1) _ _ _
    hinit (by simp)
  have hfinal : getSmartBuildOrder repos
      = kahnRun (graphOf repos).2 ((keys repos).length + 1)
          ((keys repos).filter (fun n => decide ((graphOf repos).1 n = 0)))
          (graphOf repos).1 [] := by
    rw [getSmartBuildOrder_eq]
    exact addMissing_eq_self (keys repos) _ (fun n h => hcomplete n h)
  refine ⟨getSmartBuildOrder_perm repos hnd, ?_⟩
  intro u v he
  have hkeys := edgeB_keys repos u v he
  have hvdep : v ∈ (graphOf repos).2 u := (graphOf_mem repos hnd u v).mpr he
  have hne : u ≠ v := by
    intro h
    exact hacyc u (Relation.TransGen.single (h ▸ he))
  rw [hfinal]
  apply pairwise_rel_indexOf _ hknd _ hkpair u v
    (hcomplete u hkeys.1) (hcomplete v hkeys.2) hne
  intro hr
  exact hr hvdep

/-- A rank function that is strictly monotone along every edge certifies
acyclicity. -/
lemma acyclic_of_measure (repos : Registry) (meas : String → Nat)
    (h : ∀ u v, u ∈ keys repos → v ∈ keys repos → edgeB repos u v = true →
      meas u < meas v) :
    Acyclic repos := by
  have hmono : ∀ a b, Relation.TransGen (fun u v => edgeB repos u v = true) a b →
      meas a < meas b := by
    intro a b hab
    induction hab with
    | single h1 =>
      have hk := edgeB_keys repos _ _ h1
      exact h _ _ hk.1 hk.2 h1
    | tail _ h1 ih =>
      have hk := edgeB_keys repos _ _ h1
      exact lt_trans ih (h _ _ hk.1 hk.2 h1)
  intro x hx
  exact lt_irrefl _ (hmono x x hx)

theorem c1_witness :
    getSmartBuildOrder regChain = ["C", "B", "A"] ∧
    (List.Perm (getSmartBuildOrder regChain) (keys regChain)
     ∧ ∀ u v, edgeB regChain u v = true →
        (getSmartBuildOrder regChain).indexOf u
          < (getSmartBuildOrder regChain).indexOf v) := by
  refine ⟨by decide, c1_topological_order regChain (by decide) ?_⟩
  apply acyclic_of_measure regChain
    (fun x => if x = "C" then 0 else if x = "B" then 1 else if x = "A" then 2 else 3)
  intro u v hu hv he
  have hu' : u = "A" ∨ u = "B" ∨ u = "C" := by
    simpa [keys, regChain] using hu
  have hv' : v = "A" ∨ v = "B" ∨ v = "C" := by
    simpa [keys, regChain] using hv
  rcases hu' with rfl | rfl | rfl <;> rcases hv' with rfl | rfl | rfl <;>
    revert he <;> decide

/-- C10: for every registry — cyclic or not — `getSmartBuildOrder` returns
a permutation of the registered names: the Kahn phase emits no name twice,
and the completion loop appends exactly the names not yet emitted. -/
theorem c10_always_permutation (repos : Registry)
    (hnd : (keys repos).Nodup) :
    List.Perm (getSmartBuildOrder repos) (keys repos) :=
  getSmartBuildOrder_perm repos hnd

theorem c10_witness :
    List.Perm (getSmartBuildOrder regMix) (keys regMix) :=
  c10_always_permutation regMix (by decide)

/-- C2 counterexample: on a cyclic registry `getSmartBuildOrder` does not
fail — its return type has no error case — and it returns the complete
best-effort sequence ["X", "Y"], with the cycle members silently appended
by the completion loop.  No CyclicDependency error exists anywhere in the
code. -/
theorem c2_counterexample :
    (∃ x, Relation.TransGen (fun u v => edgeB regCyc u v = true) x x) ∧
    getSmartBuildOrder regCyc = ["X", "Y"] := by
  constructor
  · exact ⟨"X", Relation.TransGen.head
      (show edgeB regCyc "X" "Y" = true by decide)
      (Relation.TransGen.single (show edgeB regCyc "Y" "X" = true by decide))⟩
  · decide

/-- C2 amended: on a registry whose graph contains a cycle,
`getSmartBuildOrder` still returns a sequence containing every registered
repository exactly once (the unemittable cycle members are appended after
the Kahn phase); it reports no error and the caller proceeds to build in
that order. -/
theorem c2_cycle_returns_full_order (repos : Registry)
    (hnd : (keys repos).Nodup)
    (hcyc : ∃ x, Relation.TransGen (fun u v => edgeB repos u v = true) x x) :
    List.Perm (getSmartBuildOrder repos) (keys repos) :=
  getSmartBuildOrder_perm repos hnd

theorem c2_amended_witness :
    List.Perm (getSmartBuildOrder regCyc) (keys regCyc) := by
  apply c2_cycle_returns_full_order regCyc (by decide)
  exact ⟨"X", Relation.TransGen.head
    (show edgeB regCyc "X" "Y" = true by decide)
    (Relation.TransGen.single (show edgeB regCyc "Y" "X" = true by decide))⟩

/-- C7 counterexample: the same registry map, enumerated in two different
iteration orders (as Go does across runs), yields two different build
sequences — `getSmartBuildOrder` is not deterministic per run. -/
theorem c7_counterexample :
    List.Perm regXY regYX ∧
    getSmartBuildOrder regXY ≠ getSmartBuildOrder regYX := by
  constructor
  · decide
  · decide

/-- C7 amended: the order does depend on the map iteration order, but only
up to permutation — any two runs over the same registry produce sequences
that are permutations of each other (each contains every registered
repository exactly once), and a run with a fixed iteration order is
reproducible. -/
theorem c7_runs_agree_up_to_permutation (l1 l2 : Registry)
    (hnd : (keys l1).Nodup) (hp : List.Perm l1 l2) :
    List.Perm (getSmartBuildOrder l1) (getSmartBuildOrder l2) := by
  have hk : List.Perm (keys l1) (keys l2) := hp.map Prod.fst
  have hnd2 : (keys l2).Nodup := hk.nodup_iff.mp hnd
  exact (getSmartBuildOrder_perm l1 hnd).trans
    (hk.trans (getSmartBuildOrder_perm l2 hnd2).symm)

theorem c7_amended_witness :
    List.Perm (getSmartBuildOrder regXY) (getSmartBuildOrder regYX) :=
  c7_runs_agree_up_to_permutation regXY regYX (by decide) (by decide)

/-- C8 counterexample: a repository depends on the unregistered name
"Ghost", yet planning does not fail — `getSmartBuildOrder` silently drops
the dangling edge and returns the order, and `buildAllRepos` runs the
build to completion.  No NotRegistered plan-time error exists. -/
theorem c8_counterexample :
    ((lookupRepo regDangling "A").getD {}).dependencies = ["Ghost"] ∧
    "Ghost" ∉ keys regDangling ∧
    getSmartBuildOrder regDangling = ["A"] ∧
    buildAllGo wGhost "/w" regDangling (getSmartBuildOrder regDangling)
      = [("A", RepoOutcome.built)] := by
  refine ⟨by decide, by decide, by decide, by decide⟩

lemma phaseBDeps_filter (ks : List String) (name : String) :
    ∀ (ds : List String) (d : String → Int) (dep : String → List String),
      phaseBDeps ks name (ds.filter (fun dp => decide (dp ∈ ks))) d dep
        = phaseBDeps ks name ds d dep := by
  intro ds
  induction ds with
  | nil => intro d dep; rfl
  | cons e ds' ih =>
    intro d dep
    by_cases hek : e ∈ ks
    · have hf : (e :: ds').filter (fun dp => decide (dp ∈ ks))
          = e :: ds'.filter (fun dp => decide (dp ∈ ks)) := by
        simp [List.filter_cons, hek]
      rw [hf]
      by_cases hmem : name ∈ dep e
      · simp only [phaseBDeps, if_pos hek, if_pos hmem]
        exact ih d dep
      · simp only [phaseBDeps, if_pos hek, if_neg hmem]
        exact ih _ _
    · have hf : (e :: ds').filter (fun dp => decide (dp ∈ ks))
          = ds'.filter (fun dp => decide (dp ∈ ks)) := by
        simp [List.filter_cons, hek]
      rw [hf]
      simp only [phaseBDeps, if_neg hek]
      exact ih d dep

lemma keys_dropDanglingDeps (repos : Registry) :
    keys (dropDanglingDeps repos) = keys repos := by
  simp [keys, dropDanglingDeps]

lemma phaseB_dropDangling (repos : Registry) :
    ∀ (cursor : Registry) (d : String → Int) (dep : String → List String),
      phaseB (keys repos)
        (cursor.map (fun p => (p.1,
          { p.2 with dependencies :=
              p.2.dependencies.filter (fun dp => decide (dp ∈ keys repos)) })))
        d dep
      = phaseB (keys repos) cursor d dep := by
  intro cursor
  induction cursor with
  | nil => intro d dep; rfl
  | cons pr rest ih =>
    intro d dep
    obtain ⟨name, rd⟩ := pr
    simp only [List.map_cons, phaseB]
    rw [phaseBDeps_filter]
    exact ih _ _

lemma graphOf_dropDangling (repos : Registry) :
    graphOf (dropDanglingDeps repos) = graphOf repos := by
  show phaseB (keys (dropDanglingDeps repos)) (dropDanglingDeps repos)
      (phaseA (keys (dropDanglingDeps repos)) (keys (dropDanglingDeps repos))
        (fun _ => 0) (fun _ => [])).1
      (phaseA (keys (dropDanglingDeps repos)) (keys (dropDanglingDeps repos))
        (fun _ => 0) (fun _ => [])).2
    = phaseB (keys repos) repos
      (phaseA (keys repos) (keys repos) (fun _ => 0) (fun _ => [])).1
      (phaseA (keys repos) (keys repos) (fun _ => 0) (fun _ => [])).2
  rw [keys_dropDanglingDeps]
  unfold dropDanglingDeps
  exact phaseB_dropDangling repos repos _ _

/-- C8 amended: the planner silently ignores dependencies on unregistered
names — removing them changes nothing about the computed order (no edge,
no in-degree, no error is ever produced for them) — and the only
NotRegistered failure in the build path is a single-target build whose
target itself is not registered. -/
theorem c8_dangling_deps_ignored (repos : Registry) :
    getSmartBuildOrder (dropDanglingDeps repos) = getSmartBuildOrder repos
    ∧ (∀ (w : World) (wsPath : String) (ws : Registry) (name : String),
        lookupRepo ws name = none → buildRepoOk w wsPath ws name = false) := by
  constructor
  · rw [getSmartBuildOrder_eq, getSmartBuildOrder_eq, graphOf_dropDangling,
      keys_dropDanglingDeps]
  · intro w wsPath ws name h
    simp [buildRepoOk, h]

theorem c8_amended_witness :
    getSmartBuildOrder (dropDanglingDeps regDangling)
      = getSmartBuildOrder regDangling ∧
    buildRepoOk wGhost "/w" regDangling "Nope" = false :=
  ⟨(c8_dangling_deps_ignored regDangling).1,
   (c8_dangling_deps_ignored regDangling).2 wGhost "/w" regDangling "Nope"
     (by decide)⟩
